import Mathlib

/-!
Verification of the zipe module-graph builder (`parse` over `ZipeModule`)
and the vue single-file-component compile pipeline (`parseSFC`,
`compileSFCMain`, `compileSFCTemplate`, `compileSFCStyle`).

The definitions below are a shallow embedding of the TypeScript source:
pure computations become Lean functions, the async recursion of `parse`
becomes fuel-indexed recursion threading an explicit state (graph cache
plus an event trace recording cache insertions, content reads and
warnings), and external collaborators (module resolver, content source,
per-extension transforms, SFC parser, import/export extractor, hashing,
the vue compilers) are parameters gathered in environment records.
-/

namespace Zipe

/-! ## Small string helpers (models of the JS runtime facilities used) -/

/-- Decimal digit character, model of the digit printing used by JS
template interpolation of numbers. -/
def decDigit (n : Nat) : Char :=
  if n = 0 then '0' else if n = 1 then '1' else if n = 2 then '2'
  else if n = 3 then '3' else if n = 4 then '4' else if n = 5 then '5'
  else if n = 6 then '6' else if n = 7 then '7' else if n = 8 then '8' else '9'

/-- Fuel-indexed accumulator loop producing the decimal digits of `n`. -/
def decCharsAux : Nat → Nat → List Char → List Char
  | 0, _, acc => acc
  | fuel+1, n, acc =>
    let acc' := decDigit (n % 10) :: acc
    if n / 10 = 0 then acc' else decCharsAux fuel (n / 10) acc'

/-- Decimal rendering of a natural number, model of the JS number-to-string
interpolation of the style index. -/
def decStr (n : Nat) : String := ⟨decCharsAux (n+1) n []⟩

/-- Split a character list at every occurrence of `sep` (accumulator of
the current segment, in reverse). -/
def splitOnCharAux (sep : Char) : List Char → List Char → List (List Char)
  | [], acc => [acc.reverse]
  | x :: xs, acc =>
    if x = sep then acc.reverse :: splitOnCharAux sep xs []
    else splitOnCharAux sep xs (x :: acc)

/-- Drop the first `n` characters of a string. -/
def strDrop (s : String) (n : Nat) : String := ⟨s.data.drop n⟩

/-- Model of node's `path.posix.basename`: the part after the last slash. -/
def posixBasename (p : String) : String :=
  ⟨((splitOnCharAux '/' p.data []).getLast?).getD p.data⟩

/-- Model of node's `path.posix.extname`: from the last dot of the basename
(leading dot of a dotfile does not count). -/
def posixExtname (p : String) : String :=
  let b := (posixBasename p).data
  let parts := splitOnCharAux '.' b []
  if parts.length ≤ 1 then ""
  else if b.headD ' ' = '.' && parts.length == 2 then ""
  else ⟨'.' :: (parts.getLast?.getD [])⟩

/-- Interleave `sep` between the given character-list segments. -/
def joinSep (sep : Char) : List (List Char) → List Char
  | [] => []
  | [x] => x
  | x :: xs => x ++ sep :: joinSep sep xs

/-- Model of node's `path.posix.dirname` (only its output shape matters
here: it feeds the asset-URL base of the template compiler). -/
def posixDirname (p : String) : String :=
  let parts := splitOnCharAux '/' p.data []
  if parts.length ≤ 1 then "." else ⟨joinSep '/' parts.dropLast⟩

/-- Replace the first occurrence of `pat` in the character list by `repl`. -/
def replaceFirstAux (pat repl : List Char) : List Char → List Char
  | [] => []
  | c :: t =>
    if pat.isPrefixOf (c :: t) then repl ++ (c :: t).drop pat.length
    else c :: replaceFirstAux pat repl t

/-- Model of JS `String.prototype.replace` with a string pattern: replaces
only the first occurrence. -/
def replaceFirst (s pat repl : String) : String :=
  ⟨replaceFirstAux pat.data repl.data s.data⟩

/-- Escape of one character, model of `JSON.stringify` escaping. -/
def jsonEscape (c : Char) : String :=
  if c = '"' then "\\\"" else if c = '\\' then "\\\\"
  else if c = '\n' then "\\n" else String.singleton c

/-- Model of `JSON.stringify` on a string. -/
def jsonStr (s : String) : String :=
  "\"" ++ String.join (s.data.map jsonEscape) ++ "\""

/-- `needle` occurs as a contiguous segment of `hay`. -/
def occursB (needle : List Char) : List Char → Bool
  | [] => needle.isEmpty
  | c :: t => needle.isPrefixOf (c :: t) || occursB needle t

/-- `needle` occurs as a substring of `hay`. -/
def occursStr (needle hay : String) : Bool := occursB needle.data hay.data

/-- The character `c` does not appear in the string `s`. -/
def charNotIn (c : Char) (s : String) : Prop := c ∉ s.data

instance (c : Char) (s : String) : Decidable (charNotIn c s) := by
  unfold charNotIn; infer_instance

/-! ## Data model of the graph builder (src/unnamed/part_000) -/

/-- `ModuleInformation` produced by the external module resolver.
`module` is the external-module flag (npm package, not recursed into). -/
structure ModuleInformation where
  name : String
  path : String
  module : Bool
deriving DecidableEq, Repr

/-- `ZipeDependency`: one dependency edge extracted from compiled code. -/
structure ZipeDependency where
  module : String
  importPath : String
  importLine : String
  info : ModuleInformation
  dynamic : Bool
deriving DecidableEq, Repr

/-- Script sub-result of an SFC compilation (`ZipeModule.sfc.script`). -/
structure SfcScript where
  code : String
  map : Option String
  dependencies : List ZipeDependency
  exports : List String
deriving DecidableEq, Repr

/-- Styles sub-result of an SFC compilation (`ZipeModule.sfc.styles`). -/
structure SfcStyles where
  code : String
  map : Option String
  modules : Option (List (String × String))
deriving DecidableEq, Repr

/-- Template sub-result of an SFC compilation (`ZipeModule.sfc.template`). -/
structure SfcTemplate where
  code : String
  map : Option String
deriving DecidableEq, Repr

/-- The `sfc` composite sub-result stored on a graph node. -/
structure SfcExtra where
  scopeId : Option String
  styles : SfcStyles
  template : SfcTemplate
  script : SfcScript
deriving DecidableEq, Repr

/-- The `extra` side-artifact bag of a node; style headers are modelled
as opaque strings. -/
structure ZipeExtra where
  styles : List String
deriving DecidableEq, Repr

/-- `ZipeModule`: one graph node. `dependenciesPromise` is modelled as
`Option Unit` (`none` = the JS `null`). -/
structure ZipeModule where
  name : String
  extension : String
  rawContent : String
  dependencies : List ZipeDependency
  fullDependencies : List ZipeDependency
  module : ModuleInformation
  extra : ZipeExtra
  code : Option String
  map : Option String
  sfc : SfcExtra
  exports : List String
  dependenciesPromise : Option Unit
deriving DecidableEq, Repr

/-- External collaborators of `parse`, as consumed by the source:
the module resolver (`resolver.info`), the content source
(`fileCache.get`, `none` models a NotFound rejection), the transform
registry, the SFC parser, and the import/export extractor
(`parseImportsExports`, repository code outside `src/`, hence kept
abstract; the spec describes it as extracting the import edges and
exported names of the given compiled code). -/
structure Env where
  resolver : String → String → ModuleInformation
  fileContent : String → Option String
  transformers : String → Option (String → String → String × Option String)
  sfcParser : String → String → SfcExtra
  extractor : String → String → List ZipeDependency × List String

/-- The graph-node initializer of `parse` (source lines 95-128): all
lists empty, `rawContent` empty, `code` null, `dependenciesPromise` null. -/
def mkItem (name : String) (module : ModuleInformation) (extension : String) : ZipeModule :=
  { name := name
    module := module
    extension := extension
    rawContent := ""
    code := none
    map := none
    dependencies := []
    fullDependencies := []
    exports := []
    extra := ⟨[]⟩
    sfc :=
      { scopeId := none
        script := ⟨"", none, [], []⟩
        styles := ⟨"", none, none⟩
        template := ⟨"", none⟩ }
    dependenciesPromise := none }

/-- The per-node content processing of `parse` (source lines 132-174):
store the raw content; on a `.vue` file run the SFC parser and take the
imports and exports of the SFC script code; otherwise run the registered
transform if any (note the source extracts imports from
`item.sfc.script.code`, not from the transformed code) or, when no
transform is registered, warn (second component `true`) and leave the
node untouched. -/
def processContent (env : Env) (item : ZipeModule) (rawContent filePath : String) :
    ZipeModule × Bool :=
  let item := { item with rawContent := rawContent }
  if item.extension == "vue" then
    let extra := env.sfcParser rawContent filePath
    let pe := env.extractor extra.script.code item.module.name
    let extra := { extra with script :=
      { extra.script with dependencies := pe.1, exports := pe.2 } }
    ({ item with sfc := extra, dependencies := item.dependencies ++ pe.1 }, false)
  else
    match env.transformers item.extension with
    | some tf =>
      let cm := tf rawContent filePath
      let item := { item with code := some cm.1, map := cm.2 }
      let pe := env.extractor item.sfc.script.code item.module.name
      ({ item with dependencies := item.dependencies ++ pe.1,
                   exports := item.exports ++ pe.2 }, false)
    | none => (item, true)

/-- Observable events of a `parse` run, newest first in the trace. -/
inductive Event where
  | cacheInsert (path : String)
  | contentRead (path name : String)
  | warn (filePath : String)
deriving DecidableEq, Repr

/-- The mutable state threaded through `parse`: the graph cache
(`dependenciesCache`, association list, newest binding first) and the
event trace (newest first). -/
structure ParseState where
  cache : List (String × ZipeModule)
  trace : List Event
deriving DecidableEq, Repr

/-- Outcome of a `parse` call: a node together with the list of paths the
call directly recursed into, a propagated NotFound rejection, or fuel
exhaustion (the marker for non-termination of the unbounded recursion). -/
inductive PResult where
  | ok (m : ZipeModule) (recursed : List String)
  | notFound
  | fuelOut
deriving DecidableEq, Repr

/-- The `.then` callback of the fan-out (source lines 188-191): append a
resolved child's style headers and full transitive dependency list onto
the current node. -/
def mergeChild (item c : ZipeModule) : ZipeModule :=
  { item with
    extra := ⟨item.extra.styles ++ c.extra.styles⟩,
    fullDependencies := item.fullDependencies ++ c.fullDependencies }

/-- The dependency fan-out of `parse` (source lines 177-195), sequentialized:
for each (already filtered non-external) dependency, recursively resolve it
via `recur`, merge the child's results in, and continue; a child rejection
propagates.  The returned path list records the direct recursive calls. -/
def parseChildren (recur : String → String → ParseState → PResult × ParseState)
    (modulePath : String) :
    List ZipeDependency → ZipeModule → ParseState → PResult × ParseState
  | [], item, st => (.ok item [], st)
  | d :: ds, item, st =>
    match recur d.info.path modulePath st with
    | (.ok c _, st₁) =>
      match parseChildren recur modulePath ds (mergeChild item c) st₁ with
      | (.ok item' rs, st₂) => (.ok item' (d.info.path :: rs), st₂)
      | r => r
    | (.notFound, st₁) => (.notFound, st₁)
    | (.fuelOut, st₁) => (.fuelOut, st₁)

/-- The content loading and processing of one `parse` call: `none` models
the NotFound rejection of the content source; otherwise the processed node
together with the warned flag. -/
def localResult (env : Env) (filePath importer : String) : Option (ZipeModule × Bool) :=
  let module := env.resolver filePath importer
  let item0 := mkItem (posixBasename module.name) module (strDrop (posixExtname module.path) 1)
  (env.fileContent module.name).map fun raw => processContent env item0 raw filePath

/-- The state right after a `parse` call registers the freshly allocated
node in the graph cache (keyed by the resolved canonical path) and logs
the content read. -/
def stepState (env : Env) (filePath importer : String) (st : ParseState) : ParseState :=
  let module := env.resolver filePath importer
  let item0 := mkItem (posixBasename module.name) module (strDrop (posixExtname module.path) 1)
  ⟨(module.path, item0) :: st.cache,
   Event.contentRead module.path module.name :: Event.cacheInsert module.path :: st.trace⟩

/-- The state after content processing: `stepState` plus the warning
event when no transform was registered. -/
def stepState2 (env : Env) (filePath importer : String) (st : ParseState) (warned : Bool) :
    ParseState :=
  if warned then
    { stepState env filePath importer st with
      trace := Event.warn filePath :: (stepState env filePath importer st).trace }
  else stepState env filePath importer st

/-- The freshly allocated node a `parse` call registers before reading
content: `mkItem` at the resolved identity. -/
def freshNode (env : Env) (filePath importer : String) : ZipeModule :=
  mkItem (posixBasename (env.resolver filePath importer).name) (env.resolver filePath importer)
    (strDrop (posixExtname (env.resolver filePath importer).path) 1)

/-- The node of an `ok` outcome. -/
def resultNode : PResult → Option ZipeModule
  | .ok m _ => some m
  | _ => none

/-- One unfolding of the body of `parse` (source lines 86-197), with the
recursive occurrence abstracted as `recur`: resolve the module identity,
allocate the node and register it in the graph cache *before* reading
content, read the content (a NotFound rejection propagates), process the
content, seed `fullDependencies` with the direct dependencies, then fan
out into the non-external dependencies. -/
def parseStep (recur : String → String → ParseState → PResult × ParseState)
    (env : Env) (filePath importer : String) (st : ParseState) :
    PResult × ParseState :=
  match localResult env filePath importer with
  | none => (.notFound, stepState env filePath importer st)
  | some pc =>
    parseChildren recur (env.resolver filePath importer).path
      (pc.1.dependencies.filter fun x => !x.info.module)
      { pc.1 with fullDependencies := pc.1.fullDependencies ++ pc.1.dependencies }
      (stepState2 env filePath importer st pc.2)

/-- Fuel-indexed embedding of the recursive `parse`.  The source recursion
has no structural bound (it never consults the graph cache before
recursing), so the embedding spends one unit of fuel per call; running out
of fuel is the observable shape of the missing cycle protection. -/
def parse (env : Env) : Nat → String → String → ParseState → PResult × ParseState
  | 0, _, _, st => (.fuelOut, st)
  | fuel+1, filePath, importer, st =>
    parseStep (fun a b s => parse env fuel a b s) env filePath importer st

/-- The node `parse` builds for `(filePath, importer)` before the
dependency fan-out (`none` when the content source rejects). -/
def nodeOf (env : Env) (filePath importer : String) : Option ZipeModule :=
  (localResult env filePath importer).map (fun pc => pc.1)

/-- Direct dependency edges `parse` records for `(filePath, importer)`. -/
def directDeps (env : Env) (filePath importer : String) : List ZipeDependency :=
  ((nodeOf env filePath importer).map (·.dependencies)).getD []

/-- The full transitive dependency list carried by an `ok` outcome. -/
def resultFull : PResult → List ZipeDependency
  | .ok c _ => c.fullDependencies
  | _ => []

/-- The transitive dependency list a child resolution contributes, read
off at the canonical empty starting state. -/
def childFull (recur : String → String → ParseState → PResult × ParseState)
    (modulePath : String) (d : ZipeDependency) : List ZipeDependency :=
  resultFull (recur d.info.path modulePath ⟨[], []⟩).1

/-- Paths that have a `cacheInsert` event in the trace. -/
def insertedPaths : List Event → List String
  | [] => []
  | .cacheInsert p :: rest => p :: insertedPaths rest
  | _ :: rest => insertedPaths rest

/-- Every content read in the (newest-first) trace happens at a moment
where the module's canonical path already has a cache insertion. -/
def goodTrace : List Event → Bool
  | [] => true
  | .contentRead p _ :: rest => (insertedPaths rest).contains p && goodTrace rest
  | _ :: rest => goodTrace rest

/-- A dependency edge reachable from `(filePath, importer)` through the
edges `parse` records, descending only into non-external dependencies. -/
inductive ReachableDep (env : Env) : String → String → ZipeDependency → Prop where
  | direct {fp imp d} : d ∈ directDeps env fp imp → ReachableDep env fp imp d
  | step {fp imp d' d} : d' ∈ directDeps env fp imp → d'.info.module = false →
      ReachableDep env d'.info.path (env.resolver fp imp).path d →
      ReachableDep env fp imp d

/-- Depth-bounded well-formedness of the dependency graph under
`(filePath, importer)`: the module's content is available and every
non-external direct dependency is well-formed at the smaller bound.
Finite acyclic graphs with all content present satisfy this at any bound
exceeding the longest non-external dependency chain. -/
inductive WellFormed (env : Env) : String → String → Nat → Prop where
  | mk {fp imp n} :
      (env.fileContent (env.resolver fp imp).name).isSome →
      (∀ d ∈ directDeps env fp imp, d.info.module = false →
        WellFormed env d.info.path (env.resolver fp imp).path n) →
      WellFormed env fp imp (n+1)

/-! ## Data model of the SFC compile pipeline (src/src/compilers.ts) -/

/-- Script block of a parsed SFC descriptor (fields the source reads). -/
structure SFCScriptBlock where
  content : String
  lang : Option String
  map : Option String
deriving DecidableEq, Repr

/-- Template block of a parsed SFC descriptor. -/
structure SFCTemplateBlock where
  content : String
  lang : Option String
  map : Option String
deriving DecidableEq, Repr

/-- Style block of a parsed SFC descriptor.  `module` models the
`string | boolean | undefined` field: `none` = absent/false,
`some none` = `true` (default `$style` name), `some (some nm)` = named. -/
structure SFCStyleBlock where
  content : String
  scoped' : Bool
  module : Option (Option String)
  lang : Option String
  map : Option String
deriving DecidableEq, Repr

/-- Parsed SFC descriptor. -/
structure SFCDescriptor where
  script : Option SFCScriptBlock
  template : Option SFCTemplateBlock
  styles : List SFCStyleBlock
deriving DecidableEq, Repr

/-- Result of compiling one style block (payload fields are opaque here). -/
structure SFCStyleCompileResults where
  code : String
  errors : List String
deriving DecidableEq, Repr

/-- One `vueCache` entry: independently settable sub-fields, the style
results indexed sparsely by block position. -/
structure CacheEntry where
  descriptor : Option SFCDescriptor
  template : Option String
  script : Option String
  styles : List (Option SFCStyleCompileResults)
deriving DecidableEq, Repr

/-- The entry a miss creates: `cached || { styles: [] }`. -/
def emptyEntry : CacheEntry := ⟨none, none, none, []⟩

/-- The compiled-artifact cache, an association list, newest binding
first (the LRU bound of the source is not modelled; only lookup and
insertion semantics matter to the claims). -/
def VueCache := List (String × CacheEntry)

/-- `vueCache.get`. -/
def cacheGet : VueCache → String → Option CacheEntry
  | [], _ => none
  | (k, e) :: rest, key => if k = key then some e else cacheGet rest key

/-- `vueCache.set`; the new binding shadows any older one. -/
def cacheSet (c : VueCache) (key : String) (e : CacheEntry) : VueCache :=
  (key, e) :: c

/-- Sparse-array write `cached.styles[index] = result`. -/
def setStyleAt : List (Option SFCStyleCompileResults) → Nat → SFCStyleCompileResults →
    List (Option SFCStyleCompileResults)
  | [], 0, r => [some r]
  | [], i+1, r => none :: setStyleAt [] i r
  | _ :: xs, 0, r => some r :: xs
  | x :: xs, i+1, r => x :: setStyleAt xs i r

/-- Input record of the external template compiler call. -/
structure TemplateCompileInput where
  source : String
  filename : String
  inMap : Option String
  assetBase : String
  scopeId : Option String
  preprocessLang : Option String

/-- Input record of the external style compiler call. -/
structure StyleCompileInput where
  source : String
  filename : String
  id : String
  scoped' : Bool
  modules : Bool
  preprocessLang : Option String

/-- External collaborators of the SFC pipeline: `hash-sum`, the esbuild
`ts` transform, `genSourceMapString`, and the three `@vue/compiler-sfc`
entry points, each consumed as a pure function. -/
structure CompilerEnv where
  hash : String → String
  tsTransform : String → String → String
  genSourceMapString : Option String → String
  sfcParse : String → String → SFCDescriptor × List String
  compileTemplate : TemplateCompileInput → String × Option String × List String
  compileStyleAsync : StyleCompileInput → SFCStyleCompileResults

/-- Modelled from the spec: the module id of the hot-style-update helper
(`hmrClientId`, imported from vite, not part of `src/`); the generated
helper-import line of `updateStyle` uses it verbatim. -/
def hmrClientId : String := "vite/hmr"

/-- The script part of the generated SFC behavior module: the script
content (through the `ts` transform when the block declares `lang="ts"`)
with its first `export default` rewritten to `const __script =`, or a
synthesized empty object when no script block exists. -/
def scriptCode (cenv : CompilerEnv) (descriptor : SFCDescriptor) (publicPath : String) :
    String :=
  match descriptor.script with
  | some s =>
    let content := if s.lang = some "ts" then cenv.tsTransform s.content publicPath
                   else s.content
    replaceFirst content "export default" "const __script ="
  | none => "const __script = \x7b\x7d"

/-- The synthetic style request path `<publicPath>?type=style&index=<i>`. -/
def styleRequest (publicPath : String) (i : Nat) : String :=
  publicPath ++ "?type=style&index=" ++ decStr i

/-- The generated CSS-module assignment line for module name `nm` and
style index `i`: `__cssModules[<json nm>] = __style<i>`. -/
def cssModulesAssign (nm : String) (i : Nat) : String :=
  "__cssModules[" ++ jsonStr nm ++ "] = __style" ++ decStr i

/-- The generated scope-id assignment for style-scoping hash `id`. -/
def scopeIdAssign (id : String) : String :=
  "__script.__scopeId = \"data-v-" ++ id ++ "\""

/-- The per-style `updateStyle` wiring line. -/
def updateStyleLine (id publicPath : String) (i : Nat) : String :=
  "\nupdateStyle(\"" ++ id ++ "-" ++ decStr i ++ "\", " ++ jsonStr (styleRequest publicPath i) ++ ")"

/-- The CSS-module map key of a style block's `module` field: the custom
name when a string was given, `$style` otherwise. -/
def moduleNameOf : Option String → String
  | some nm => nm
  | none => "$style"

/-- The CSS-module wiring chunk of one style block: the one-time
`__cssModules` initializer, the import of the block's compiled output
under the `&module` suffix, and the assignment into the module map. -/
def moduleChunk (publicPath : String) (i : Nat) (m : Option String) (hasCSSModules : Bool) :
    String :=
  (if hasCSSModules then ""
   else "\nconst __cssModules = __script.__cssModules = \x7b\x7d")
  ++ ("\nimport " ++ ("__style" ++ decStr i) ++ " from "
        ++ jsonStr (styleRequest publicPath i ++ "&module"))
  ++ ("\n" ++ cssModulesAssign (moduleNameOf m) i)

/-- The `descriptor.styles.forEach` loop of `compileSFCMain`, threading
the style index and the `hasScoped` / `hasCSSModules` flags; returns the
emitted code and the final flags. -/
def stylesCodeLoop (id publicPath : String) :
    List SFCStyleBlock → Nat → Bool → Bool → String × Bool × Bool
  | [], _, hasScoped, hasCSSModules => ("", hasScoped, hasCSSModules)
  | s :: rest, i, hasScoped, hasCSSModules =>
    let hasScoped := hasScoped || s.scoped'
    let mc : String × Bool :=
      match s.module with
      | some m => (moduleChunk publicPath i m hasCSSModules, true)
      | none => ("", hasCSSModules)
    let rest' := stylesCodeLoop id publicPath rest (i+1) hasScoped mc.2
    (mc.1 ++ updateStyleLine id publicPath i ++ rest'.1, rest'.2)

/-- The `updateStyle` helper import emitted ahead of the style wiring. -/
def updateStyleImport : String :=
  "\nimport \x7b updateStyle \x7d from \"" ++ hmrClientId ++ "\"\n"

/-- The script part, helper import, style wiring and scope id of the
generated behavior module (source lines 104-141). -/
def mainCodeStyled (cenv : CompilerEnv) (descriptor : SFCDescriptor)
    (publicPath : String) : String :=
  let id := cenv.hash publicPath
  let sl := stylesCodeLoop id publicPath descriptor.styles 0 false false
  let code := scriptCode cenv descriptor publicPath ++ updateStyleImport ++ sl.1
  if sl.2.1 then code ++ ("\n" ++ scopeIdAssign id) else code

/-- The template render wiring, hot-reload id, file path, default export
and trailing source-map comment of the generated behavior module
(source lines 143-155), appended after `code`. -/
def mainCodeTail (cenv : CompilerEnv) (descriptor : SFCDescriptor)
    (filePath publicPath : String) (code : String) : String :=
  let code := match descriptor.template with
    | some _ => code ++ "\nimport \x7b render as __render \x7d from "
                  ++ jsonStr (publicPath ++ "?type=template")
                  ++ "\n__script.render = __render"
    | none => code
  let code := code ++ "\n__script.__hmrId = " ++ jsonStr publicPath
  let code := code ++ "\n__script.__file = " ++ jsonStr filePath
  let code := code ++ "\nexport default __script"
  match descriptor.script with
  | some s => code ++ cenv.genSourceMapString s.map
  | none => code

/-- The full code generation of `compileSFCMain` (source lines 104-155):
script part, `updateStyle` import, per-style wiring, scope id when some
style block is scoped, template render wiring, hot-reload id, file path,
default export, and the trailing script source-map comment. -/
def mainCode (cenv : CompilerEnv) (descriptor : SFCDescriptor)
    (filePath publicPath : String) : String :=
  mainCodeTail cenv descriptor filePath publicPath (mainCodeStyled cenv descriptor publicPath)

/-- `parseSFC` (source lines 39-92), content given: serve the cached
descriptor when present, otherwise invoke the SFC parser and store the
descriptor on the (possibly pre-existing) cache entry.  The third
component records whether the underlying parser was invoked. -/
def parseSFC (cenv : CompilerEnv) (filename content : String) (c : VueCache) :
    SFCDescriptor × VueCache × Bool :=
  match (cacheGet c filename).bind CacheEntry.descriptor with
  | some d => (d, c, false)
  | none =>
    let pr := cenv.sfcParse content filename
    let cached := (cacheGet c filename).getD emptyEntry
    (pr.1, cacheSet c filename { cached with descriptor := some pr.1 }, true)

/-- `compileSFCMain` (source lines 94-161): serve the cached script when
present, otherwise generate the behavior module code and cache it.  The
third component records whether the generation ran. -/
def compileSFCMain (cenv : CompilerEnv) (descriptor : SFCDescriptor)
    (filePath publicPath : String) (c : VueCache) : String × VueCache × Bool :=
  match (cacheGet c filePath).bind CacheEntry.script with
  | some s => (s, c, false)
  | none =>
    let code := mainCode cenv descriptor filePath publicPath
    let cached := (cacheGet c filePath).getD emptyEntry
    (code, cacheSet c filePath { cached with script := some code }, true)

/-- `compileSFCTemplate` (source lines 163-219): serve the cached template
when present, otherwise invoke the template compiler (scope id
`data-v-<hash>` when scoped, asset base the public path's directory),
append the source-map comment and cache the result. -/
def compileSFCTemplate (cenv : CompilerEnv) (template : SFCTemplateBlock)
    (filename publicPath : String) (scoped' : Bool) (c : VueCache) :
    String × VueCache × Bool :=
  match (cacheGet c filename).bind CacheEntry.template with
  | some t => (t, c, false)
  | none =>
    let r := cenv.compileTemplate
      { source := template.content
        filename := filename
        inMap := template.map
        assetBase := posixDirname publicPath
        scopeId := if scoped' then some ("data-v-" ++ cenv.hash publicPath) else none
        preprocessLang := template.lang }
    let finalCode := r.1 ++ cenv.genSourceMapString r.2.1
    let cached := (cacheGet c filename).getD emptyEntry
    (finalCode, cacheSet c filename { cached with template := some finalCode }, true)

/-- `compileSFCStyle` (source lines 221-298): serve the cached style
result for this block index when present, otherwise invoke the style
compiler (scoping id, CSS-module flag, preprocess language) and cache the
result at the block index. -/
def compileSFCStyle (cenv : CompilerEnv) (style : SFCStyleBlock) (index : Nat)
    (filename publicPath : String) (c : VueCache) :
    SFCStyleCompileResults × VueCache × Bool :=
  match (cacheGet c filename).bind (fun e => e.styles.getD index none) with
  | some r => (r, c, false)
  | none =>
    let result := cenv.compileStyleAsync
      { source := style.content
        filename := filename
        id := "data-v-" ++ cenv.hash publicPath
        scoped' := style.scoped'
        modules := style.module.isSome
        preprocessLang := style.lang }
    let cached := (cacheGet c filename).getD emptyEntry
    (result, cacheSet c filename { cached with styles := setStyleAt cached.styles index result },
     true)

/-- The self-importing module used to exhibit the missing cycle guard. -/
def cycInfo : ModuleInformation := ⟨"/a", "/a", false⟩

/-- The dependency edge of `/a` on itself. -/
def cycDep : ZipeDependency := ⟨"/a", "\"/a\"", "import \"/a\"", cycInfo, false⟩

/-- An environment whose only module `/a` (non-external, content always
available, identity transform registered) imports itself. -/
def cycEnv : Env :=
  { resolver := fun _ _ => cycInfo
    fileContent := fun _ => some "import \"/a\""
    transformers := fun _ => some (fun s _ => (s, none))
    sfcParser := fun _ _ => (mkItem "" cycInfo "").sfc
    extractor := fun _ _ => ([cycDep], []) }

/-- The node `/a`'s local processing result under `cycEnv`. -/
def cycItem : ZipeModule :=
  { mkItem "a" cycInfo "" with
    rawContent := "import \"/a\""
    code := some "import \"/a\""
    dependencies := [cycDep] }

/-- The empty SFC sub-result used by the concrete test environments. -/
def defaultSfc : SfcExtra := (mkItem "" ⟨"", "", false⟩ "").sfc

/-- Resolved identity of `util.ts` in Scenario A. -/
def utilInfo : ModuleInformation := ⟨"util.ts", "util.ts", false⟩

/-- The dependency edge Scenario A expects on the `main.ts` node. -/
def utilDep : ZipeDependency :=
  ⟨"./util.ts", "\"./util.ts\"", "import \"./util.ts\"", utilInfo, false⟩

/-- Scenario A environment: `main.ts` contains `import "./util.ts"`, a
`ts` transform (the identity) is registered, and the extractor finds the
`util.ts` edge exactly when given that import statement as code. -/
def envA : Env :=
  { resolver := fun fp _ => ⟨fp, fp, false⟩
    fileContent := fun n => if n = "main.ts" then some "import \"./util.ts\"" else some ""
    transformers := fun e => if e = "ts" then some (fun s _ => (s, none)) else none
    sfcParser := fun _ _ => defaultSfc
    extractor := fun code _ =>
      if code = "import \"./util.ts\"" then ([utilDep], []) else ([], []) }

/-- Scenario D environment: the content source rejects every path. -/
def envD : Env :=
  { resolver := fun fp _ => ⟨fp, fp, false⟩
    fileContent := fun _ => none
    transformers := fun _ => none
    sfcParser := fun _ _ => defaultSfc
    extractor := fun _ _ => ([], []) }

/-- Environment with no registered transforms and content available. -/
def envU : Env :=
  { resolver := fun fp _ => ⟨fp, fp, false⟩
    fileContent := fun _ => some "text"
    transformers := fun _ => none
    sfcParser := fun _ _ => defaultSfc
    extractor := fun _ _ => ([], []) }

/-- Resolved identity of the leaf module of the two-module test graph. -/
def leafInfo : ModuleInformation := ⟨"leaf.ts", "leaf.ts", false⟩

/-- The edge from `root.ts` to `leaf.ts` in the two-module test graph. -/
def leafDep : ZipeDependency :=
  ⟨"./leaf.ts", "\"./leaf.ts\"", "import \"./leaf.ts\"", leafInfo, false⟩

/-- A two-module acyclic environment: `root.ts` depends on `leaf.ts`,
`leaf.ts` has no dependencies, all content available, `ts` transform
registered. -/
def envT : Env :=
  { resolver := fun fp _ => ⟨fp, fp, false⟩
    fileContent := fun _ => some "body"
    transformers := fun e => if e = "ts" then some (fun s _ => (s, none)) else none
    sfcParser := fun _ _ => defaultSfc
    extractor := fun _ name => if name = "root.ts" then ([leafDep], []) else ([], []) }

/-- Resolved identity of the root module of the two-module test graph. -/
def rootInfo : ModuleInformation := ⟨"root.ts", "root.ts", false⟩

/-- The node `parse` returns for `root.ts` under `envT`. -/
def rootNode : ZipeModule :=
  { mkItem "root.ts" rootInfo "ts" with
    rawContent := "body", code := some "body",
    dependencies := [leafDep], fullDependencies := [leafDep] }

/-- Concrete descriptor used by the compile-pipeline witnesses. -/
def ddW : SFCDescriptor := ⟨none, none, []⟩

/-- A fully populated cache entry for the witness. -/
def entryW : CacheEntry := ⟨some ddW, some "tpl", some "script", [some ⟨"css", []⟩]⟩

/-- A cache holding `entryW` under `App.vue`. -/
def cW : VueCache := [("App.vue", entryW)]

/-- Concrete compile services for the witnesses. -/
def cenvW : CompilerEnv :=
  { hash := fun _ => "abc123"
    tsTransform := fun s _ => s
    genSourceMapString := fun _ => ""
    sfcParse := fun _ _ => (ddW, [])
    compileTemplate := fun _ => ("", none, [])
    compileStyleAsync := fun _ => ⟨"", []⟩ }

/-- Concrete template block for the witnesses. -/
def tplW : SFCTemplateBlock := ⟨"x", none, none⟩

/-- Concrete scoped style block (no CSS-module flag). -/
def styW : SFCStyleBlock := ⟨"s", true, none, none, none⟩

/-- Scenario B descriptor: one scoped style block, no CSS modules. -/
def descB : SFCDescriptor := ⟨none, none, [styW]⟩

/-- A style block with CSS-module semantics named `theme`. -/
def styM : SFCStyleBlock := ⟨"c", false, some (some "theme"), none, none⟩

/-- Scenario C descriptor: one CSS-module style block named `theme`. -/
def descC : SFCDescriptor := ⟨none, none, [styM]⟩

/-- A style block with unnamed CSS-module semantics (`module: true`). -/
def styS : SFCStyleBlock := ⟨"c", false, some none, none, none⟩

/-- Descriptor with one unnamed CSS-module style block. -/
def descS : SFCDescriptor := ⟨none, none, [styS]⟩

/-- The number of non-external direct dependencies of a node — the number
of child resolutions its fan-out starts. -/
def numChildren (env : Env) (fp imp : String) : Nat :=
  ((directDeps env fp imp).filter fun x => !x.info.module).length

/-- Reorder `l` by the list of positions `perm` (out-of-range positions
are dropped); for `perm` a permutation of `range l.length` this is a
permutation of `l`. -/
def applyPerm {α : Type} (perm : List Nat) (l : List α) : List α :=
  perm.filterMap (fun i => l.get? i)

/-- The transitive-dependency list of one node as the source's concurrent
fan-out builds it (lines 176-195): the direct edges are seeded first, and
each non-external child's own transitive list is pushed by that child's
`.then` callback, i.e. in the order the children's promises settle — not
in declaration order.  `sched fp imp` gives that completion order as a
permutation of the children's declaration positions; children settling in
declaration order is the identity schedule, and a child whose subtree is
deeper settles after a later-declared shallow sibling. -/
def parseFullSched (env : Env) (sched : String → String → List Nat) :
    Nat → String → String → List ZipeDependency
  | 0, _, _ => []
  | fuel+1, fp, imp =>
    let deps := directDeps env fp imp
    let children := deps.filter fun x => !x.info.module
    deps ++ ((applyPerm (sched fp imp) children).map
        (fun d => parseFullSched env sched fuel d.info.path (env.resolver fp imp).path)).flatten

/-- Edge to `a.ts` in the completion-order counterexample graph. -/
def oDepA : ZipeDependency :=
  ⟨"./a.ts", "\"./a.ts\"", "import \"./a.ts\"", ⟨"a.ts", "a.ts", false⟩, false⟩

/-- Edge to `b.ts` in the completion-order counterexample graph. -/
def oDepB : ZipeDependency :=
  ⟨"./b.ts", "\"./b.ts\"", "import \"./b.ts\"", ⟨"b.ts", "b.ts", false⟩, false⟩

/-- Edge to `c.ts` in the completion-order counterexample graph. -/
def oDepC : ZipeDependency :=
  ⟨"./c.ts", "\"./c.ts\"", "import \"./c.ts\"", ⟨"c.ts", "c.ts", false⟩, false⟩

/-- Edge to `d.ts` in the completion-order counterexample graph. -/
def oDepD : ZipeDependency :=
  ⟨"./d.ts", "\"./d.ts\"", "import \"./d.ts\"", ⟨"d.ts", "d.ts", false⟩, false⟩

/-- Counterexample graph for the declaration-order reading of the
transitive list: `root.ts` imports `a.ts` then `b.ts`; `a.ts` imports
`c.ts`; `b.ts` imports `d.ts`; no edges are external. -/
def envO : Env :=
  { resolver := fun fp _ => ⟨fp, fp, false⟩
    fileContent := fun _ => some "src"
    transformers := fun _ => some (fun s _ => (s, none))
    sfcParser := fun _ _ => defaultSfc
    extractor := fun _ name =>
      if name = "root.ts" then ([oDepA, oDepB], [])
      else if name = "a.ts" then ([oDepC], [])
      else if name = "b.ts" then ([oDepD], [])
      else ([], []) }

/-- A completion schedule for `envO` under which `root.ts`'s
second-declared child `b.ts` (whose subtree is one level shallower)
settles before the first-declared `a.ts` — the order an event loop
produces there, since `a.ts` must await its own child `c.ts` first. -/
def schedO : String → String → List Nat :=
  fun a _ =>
    if a = "root.ts" then [1, 0]
    else if a = "a.ts" then [0] else if a = "b.ts" then [0] else []

/-! ## Basic lemmas about the string helpers -/

theorem strDataAppend (a b : String) : (a ++ b).data = a.data ++ b.data := by
  cases a; cases b; rfl

theorem charNotIn_append {c : Char} {a b : String} :
    charNotIn c (a ++ b) ↔ charNotIn c a ∧ charNotIn c b := by
  simp [charNotIn, strDataAppend, not_or]

theorem isPrefixOf_append {n l m : List Char} (h : n.isPrefixOf l = true) :
    n.isPrefixOf (l ++ m) = true := by
  induction n generalizing l with
  | nil => simp [List.isPrefixOf]
  | cons a as ih =>
    cases l with
    | nil => simp [List.isPrefixOf] at h
    | cons b bs =>
      simp only [List.isPrefixOf, List.cons_append, Bool.and_eq_true, beq_iff_eq] at h ⊢
      exact ⟨h.1, ih h.2⟩

theorem isPrefixOf_mem {n l : List Char} (h : n.isPrefixOf l = true) :
    ∀ c ∈ n, c ∈ l := by
  induction n generalizing l with
  | nil => simp
  | cons a as ih =>
    cases l with
    | nil => simp [List.isPrefixOf] at h
    | cons b bs =>
      simp only [List.isPrefixOf, Bool.and_eq_true, beq_iff_eq] at h
      intro c hc
      rcases List.mem_cons.1 hc with rfl | hc
      · simp [h.1]
      · exact List.mem_cons_of_mem _ (ih h.2 c hc)

theorem isPrefixOf_refl (l : List Char) : l.isPrefixOf l = true := by
  induction l with
  | nil => rfl
  | cons a as ih => simp [List.isPrefixOf, ih]

theorem occursB_of_isPrefixOf {n hay : List Char} (h : n.isPrefixOf hay = true) :
    occursB n hay = true := by
  cases hay with
  | nil =>
    cases n with
    | nil => rfl
    | cons a as => simp [List.isPrefixOf] at h
  | cons c t => simp [occursB, h]

theorem occursB_append_left {n a : List Char} (b : List Char)
    (h : occursB n a = true) : occursB n (a ++ b) = true := by
  induction a with
  | nil =>
    simp [occursB, List.isEmpty_iff] at h
    subst h
    exact occursB_of_isPrefixOf (by simp [List.isPrefixOf])
  | cons c t ih =>
    simp only [occursB, Bool.or_eq_true] at h ⊢
    rcases h with h | h
    · exact Or.inl (isPrefixOf_append (l := c :: t) h)
    · exact Or.inr (ih h)

theorem occursB_append_right {n b : List Char} (a : List Char)
    (h : occursB n b = true) : occursB n (a ++ b) = true := by
  induction a with
  | nil => simpa using h
  | cons c t ih =>
    simp only [List.cons_append, occursB, Bool.or_eq_true]
    exact Or.inr ih

theorem occursB_self (n : List Char) : occursB n n = true :=
  occursB_of_isPrefixOf (isPrefixOf_refl n)

theorem occursB_mem {n hay : List Char} (h : occursB n hay = true) :
    ∀ c ∈ n, c ∈ hay := by
  induction hay with
  | nil =>
    simp [occursB, List.isEmpty_iff] at h
    subst h
    simp
  | cons c t ih =>
    simp only [occursB, Bool.or_eq_true] at h
    rcases h with h | h
    · exact isPrefixOf_mem h
    · intro x hx
      exact List.mem_cons_of_mem _ (ih h x hx)

theorem occursB_eq_false {n hay : List Char} {c : Char}
    (hcn : c ∈ n) (hch : c ∉ hay) : occursB n hay = false := by
  cases hoc : occursB n hay with
  | false => rfl
  | true => exact absurd (occursB_mem hoc c hcn) hch

theorem occursStr_append_left {n a : String} (b : String)
    (h : occursStr n a = true) : occursStr n (a ++ b) = true := by
  unfold occursStr at h ⊢
  rw [strDataAppend]
  exact occursB_append_left _ h

theorem occursStr_append_right {n b : String} (a : String)
    (h : occursStr n b = true) : occursStr n (a ++ b) = true := by
  unfold occursStr at h ⊢
  rw [strDataAppend]
  exact occursB_append_right _ h

theorem occursStr_eq_false {n hay : String} {c : Char}
    (hcn : c ∈ n.data) (hch : charNotIn c hay) : occursStr n hay = false :=
  occursB_eq_false hcn hch

theorem decDigit_ne_M (n : Nat) : decDigit n ≠ 'M' := by
  unfold decDigit
  repeat' split
  all_goals decide

theorem decCharsAux_notM :
    ∀ fuel n acc, (∀ c ∈ acc, c ≠ 'M') → ∀ c ∈ decCharsAux fuel n acc, c ≠ 'M' := by
  intro fuel
  induction fuel with
  | zero => intro n acc h; simpa [decCharsAux] using h
  | succ f ih =>
    intro n acc h
    have hacc : ∀ c ∈ decDigit (n % 10) :: acc, c ≠ 'M' := by
      intro c hc
      rcases List.mem_cons.1 hc with rfl | hc
      · exact decDigit_ne_M _
      · exact h c hc
    simp only [decCharsAux]
    split
    · exact hacc
    · exact ih _ _ hacc

theorem decStr_notM (n : Nat) : charNotIn 'M' (decStr n) := by
  intro h
  exact decCharsAux_notM (n+1) n [] (by simp) 'M' h rfl

theorem jsonEscape_notM {c : Char} (hc : c ≠ 'M') : charNotIn 'M' (jsonEscape c) := by
  unfold jsonEscape
  repeat' split
  · decide
  · decide
  · decide
  · simpa [charNotIn, String.singleton] using fun h => hc h.symm

theorem foldl_append_notM {ch : Char} :
    ∀ (l : List String) (init : String), charNotIn ch init →
      (∀ x ∈ l, charNotIn ch x) → charNotIn ch (l.foldl (· ++ ·) init) := by
  intro l
  induction l with
  | nil => intro init h _; simpa using h
  | cons a as ih =>
    intro init h hl
    simp only [List.foldl_cons]
    exact ih _ (charNotIn_append.2 ⟨h, hl a (by simp)⟩)
      (fun x hx => hl x (List.mem_cons_of_mem _ hx))

theorem jsonStr_notM {s : String} (h : charNotIn 'M' s) : charNotIn 'M' (jsonStr s) := by
  unfold jsonStr
  refine charNotIn_append.2 ⟨charNotIn_append.2 ⟨by decide, ?_⟩, by decide⟩
  unfold String.join
  refine foldl_append_notM _ _ (by decide) ?_
  intro x hx
  rcases List.mem_map.1 hx with ⟨c, hc, rfl⟩
  exact jsonEscape_notM (fun hcm => h (hcm ▸ hc))

/-! ## Structural lemmas about `parse` -/

theorem parse_succ (env : Env) (fuel : Nat) (fp imp : String) (st : ParseState) :
    parse env (fuel+1) fp imp st = parseStep (fun a b s => parse env fuel a b s) env fp imp st :=
  rfl

theorem processContent_presv (env : Env) (item : ZipeModule) (raw fp : String) :
    (processContent env item raw fp).1.dependenciesPromise = item.dependenciesPromise
    ∧ (processContent env item raw fp).1.fullDependencies = item.fullDependencies
    ∧ (processContent env item raw fp).1.module = item.module
    ∧ (processContent env item raw fp).1.name = item.name
    ∧ (processContent env item raw fp).1.extension = item.extension
    ∧ (processContent env item raw fp).1.extra = item.extra
    ∧ (processContent env item raw fp).1.rawContent = raw := by
  unfold processContent
  dsimp only
  split
  · exact ⟨rfl, rfl, rfl, rfl, rfl, rfl, rfl⟩
  · split
    · exact ⟨rfl, rfl, rfl, rfl, rfl, rfl, rfl⟩
    · exact ⟨rfl, rfl, rfl, rfl, rfl, rfl, rfl⟩

theorem parseChildren_fst {recur : String → String → ParseState → PResult × ParseState}
    (hrec : ∀ a b s s', (recur a b s).1 = (recur a b s').1) (mp : String) :
    ∀ ds item st st',
      (parseChildren recur mp ds item st).1 = (parseChildren recur mp ds item st').1 := by
  intro ds
  induction ds with
  | nil => intro item st st'; rfl
  | cons d ds ih =>
    intro item st st'
    simp only [parseChildren]
    rcases hr : recur d.info.path mp st with ⟨r1, s1⟩
    rcases hr' : recur d.info.path mp st' with ⟨r2, s2⟩
    have heq : r1 = r2 := by
      have := hrec d.info.path mp st st'
      rw [hr, hr'] at this
      exact this
    subst heq
    cases r1 with
    | ok c crs =>
      dsimp only
      rcases hg : parseChildren recur mp ds (mergeChild item c) s1 with ⟨q1, t1⟩
      rcases hg' : parseChildren recur mp ds (mergeChild item c) s2 with ⟨q2, t2⟩
      have heq2 : q1 = q2 := by
        have := ih (mergeChild item c) s1 s2
        rw [hg, hg'] at this
        exact this
      subst heq2
      cases q1 <;> rfl
    | notFound => rfl
    | fuelOut => rfl

theorem parse_fst (env : Env) (fuel : Nat) :
    ∀ fp imp st st', (parse env fuel fp imp st).1 = (parse env fuel fp imp st').1 := by
  induction fuel with
  | zero => intro fp imp st st'; rfl
  | succ f ih =>
    intro fp imp st st'
    simp only [parse, parseStep]
    cases hc : localResult env fp imp with
    | none => rfl
    | some pc =>
      exact parseChildren_fst (fun a b s s' => ih a b s s') _ _ _ _ _

theorem parseChildren_ok {recur : String → String → ParseState → PResult × ParseState}
    (hrec : ∀ a b s s', (recur a b s).1 = (recur a b s').1) (mp : String) :
    ∀ ds item st m rs st', parseChildren recur mp ds item st = (.ok m rs, st') →
      m.fullDependencies = item.fullDependencies ++ (ds.map (childFull recur mp)).flatten
      ∧ rs = ds.map (fun d => d.info.path)
      ∧ m.dependencies = item.dependencies
      ∧ m.dependenciesPromise = item.dependenciesPromise
      ∧ m.code = item.code
      ∧ m.rawContent = item.rawContent
      ∧ m.module = item.module
      ∧ m.exports = item.exports
      ∧ ∀ d ∈ ds, ∃ c rs' s',
          recur d.info.path mp ⟨[], []⟩ = (.ok c rs', s') ∧
          c.fullDependencies = childFull recur mp d := by
  intro ds
  induction ds with
  | nil =>
    intro item st m rs st' h
    simp only [parseChildren, Prod.mk.injEq, PResult.ok.injEq] at h
    obtain ⟨⟨rfl, rfl⟩, rfl⟩ := h
    simp
  | cons d ds ih =>
    intro item st m rs st' h
    simp only [parseChildren] at h
    rcases hr : recur d.info.path mp st with ⟨r1, s1⟩
    rw [hr] at h
    cases r1 with
    | notFound => simp at h
    | fuelOut => simp at h
    | ok c crs =>
      split at h
      rotate_left
      · rename_i zz1 zz2 heqz
        simp at heqz
      · rename_i zz1 zz2 heqz
        simp at heqz
      rename_i c0 recursed0 st10 heqz
      simp only [Prod.mk.injEq, PResult.ok.injEq] at heqz
      obtain ⟨⟨hq1, hq2⟩, hq3⟩ := heqz
      subst hq1
      subst hq2
      subst hq3
      rcases hg : parseChildren recur mp ds (mergeChild item c) s1 with ⟨q1, t1⟩
      rw [hg] at h
      cases q1 with
      | notFound => simp at h
      | fuelOut => simp at h
      | ok m' rs' =>
        simp only [Prod.mk.injEq, PResult.ok.injEq] at h
        obtain ⟨⟨rfl, rfl⟩, rfl⟩ := h
        obtain ⟨hfull, hrs, hdeps, hdp, hcode, hraw, hmod, hexp, hkids⟩ :=
          ih _ s1 m' rs' t1 hg
        have hcanon : (recur d.info.path mp ⟨[], []⟩).1 = PResult.ok c crs := by
          rw [hrec d.info.path mp ⟨[], []⟩ st, hr]
        have hchild : childFull recur mp d = c.fullDependencies := by
          unfold childFull
          rw [hcanon]
          rfl
        refine ⟨?_, ?_, hdeps, hdp, hcode, hraw, hmod, hexp, ?_⟩
        · rw [hfull]
          simp only [mergeChild, List.map_cons, List.flatten_cons, hchild]
          rw [List.append_assoc]
        · simp [hrs]
        · intro d' hd'
          rcases List.mem_cons.1 hd' with rfl | hd'
          · rcases hx : recur d'.info.path mp ⟨[], []⟩ with ⟨rx, sx⟩
            have : rx = PResult.ok c crs := by rw [hx] at hcanon; exact hcanon
            subst this
            exact ⟨c, crs, sx, rfl, hchild.symm⟩
          · exact hkids d' hd'

theorem localResult_facts {env : Env} {fp imp : String} {pc : ZipeModule × Bool}
    (h : localResult env fp imp = some pc) :
    nodeOf env fp imp = some pc.1
    ∧ pc.1.dependenciesPromise = none
    ∧ pc.1.fullDependencies = []
    ∧ pc.1.module = env.resolver fp imp
    ∧ pc.1.extra = ⟨[]⟩ := by
  refine ⟨by simp [nodeOf, h], ?_⟩
  have h' := h
  simp only [localResult, Option.map_eq_some'] at h'
  obtain ⟨raw, hraw, hpc⟩ := h'
  have pres := processContent_presv env
    (mkItem (posixBasename (env.resolver fp imp).name) (env.resolver fp imp)
      (strDrop (posixExtname (env.resolver fp imp).path) 1)) raw fp
  rw [← hpc]
  exact ⟨pres.1, pres.2.1, pres.2.2.1, pres.2.2.2.2.2.1⟩

theorem parse_ok_facts {env : Env} {fuel : Nat} {fp imp : String} {st : ParseState}
    {m : ZipeModule} {r : List String} {st' : ParseState}
    (h : parse env (fuel+1) fp imp st = (.ok m r, st')) :
    ∃ pc, localResult env fp imp = some pc
      ∧ m.dependencies = pc.1.dependencies
      ∧ m.code = pc.1.code
      ∧ m.rawContent = pc.1.rawContent
      ∧ m.exports = pc.1.exports
      ∧ m.module = env.resolver fp imp
      ∧ m.dependenciesPromise = none
      ∧ m.fullDependencies = pc.1.dependencies ++
          ((pc.1.dependencies.filter fun x => !x.info.module).map
            (childFull (fun a b s => parse env fuel a b s) (env.resolver fp imp).path)).flatten
      ∧ r = (pc.1.dependencies.filter fun x => !x.info.module).map (fun d => d.info.path)
      ∧ ∀ d ∈ pc.1.dependencies.filter (fun x => !x.info.module),
          ∃ c rs' s',
            parse env fuel d.info.path (env.resolver fp imp).path ⟨[], []⟩ = (.ok c rs', s')
            ∧ c.fullDependencies =
                childFull (fun a b s => parse env fuel a b s) (env.resolver fp imp).path d := by
  rcases hlr : localResult env fp imp with _ | pc
  · exfalso
    have hnf : (parse env (fuel+1) fp imp st).1 = PResult.notFound := by
      simp [parse, parseStep, hlr]
    rw [h] at hnf
    simp at hnf
  · have h2 : parseChildren (fun a b s => parse env fuel a b s) (env.resolver fp imp).path
        (pc.1.dependencies.filter fun x => !x.info.module)
        { pc.1 with fullDependencies := pc.1.fullDependencies ++ pc.1.dependencies }
        (stepState2 env fp imp st pc.2) = (.ok m r, st') := by
      have hx := h
      simp only [parse, parseStep, hlr] at hx
      exact hx
    have hrec : ∀ a b s s',
        ((fun a b s => parse env fuel a b s) a b s).1 =
        ((fun a b s => parse env fuel a b s) a b s').1 :=
      fun a b s s' => parse_fst env fuel a b s s'
    obtain ⟨hfull, hrs, hdeps, hdp, hcode, hraw, hmod, hexp, hkids⟩ :=
      parseChildren_ok hrec _ _ _ _ _ _ _ h2
    obtain ⟨hnode, hdp0, hfull0, hmod0, hextra0⟩ := localResult_facts hlr
    refine ⟨pc, rfl, hdeps, hcode, hraw, hexp, ?_, ?_, ?_, ?_, ?_⟩
    · rw [hmod]
      exact hmod0
    · rw [hdp]
      exact hdp0
    · rw [hfull]
      show pc.1.fullDependencies ++ pc.1.dependencies ++ _ = _
      rw [hfull0, List.nil_append]
    · exact hrs
    · intro d hd
      obtain ⟨c, rs', s', hx, hcf⟩ := hkids d hd
      exact ⟨c, rs', s', hx, hcf⟩

theorem directDeps_eq {env : Env} {fp imp : String} {pc : ZipeModule × Bool}
    (h : localResult env fp imp = some pc) :
    directDeps env fp imp = pc.1.dependencies := by
  simp [directDeps, nodeOf, h]

theorem parse_zero_ne_ok {env : Env} {fp imp : String} {st : ParseState}
    {m : ZipeModule} {r : List String} {st' : ParseState} :
    parse env 0 fp imp st ≠ (.ok m r, st') := by
  simp [parse]

theorem reach_mem {env : Env} {fp imp : String} {d : ZipeDependency}
    (hreach : ReachableDep env fp imp d) :
    ∀ fuel st m r st', parse env fuel fp imp st = (.ok m r, st') →
      d ∈ m.fullDependencies := by
  induction hreach with
  | direct hd =>
    intro fuel st m r st' h
    cases fuel with
    | zero => exact absurd h parse_zero_ne_ok
    | succ f =>
      obtain ⟨pc, hlr, hdeps, _, _, _, _, _, hfull, _, _⟩ := parse_ok_facts h
      have hlr' : localResult _ _ _ = some pc := hlr
      rw [hfull]
      exact List.mem_append_left _ ((directDeps_eq hlr').symm ▸ hd)
  | @step fpx impx d' dx hd' hext _ ih =>
    intro fuel st m r st' h
    cases fuel with
    | zero => exact absurd h parse_zero_ne_ok
    | succ f =>
      obtain ⟨pc, hlr, hdeps, _, _, _, _, _, hfull, _, hkids⟩ := parse_ok_facts h
      have hlr' : localResult _ _ _ = some pc := hlr
      have hmem : d' ∈ pc.1.dependencies.filter (fun x => !x.info.module) := by
        rw [List.mem_filter]
        exact ⟨(directDeps_eq hlr').symm ▸ hd', by simp [hext]⟩
      obtain ⟨c, rs', s', hx, hcf⟩ := hkids d' hmem
      have hdc : dx ∈ c.fullDependencies := ih f ⟨[], []⟩ c rs' s' hx
      rw [hfull]
      refine List.mem_append_right _ (List.mem_flatten.2 ⟨_, List.mem_map_of_mem _ hmem, ?_⟩)
      exact hcf ▸ hdc

theorem applyPerm_range {α : Type} : ∀ l : List α, applyPerm (List.range l.length) l = l := by
  intro l
  induction l with
  | nil => rfl
  | cons x xs ih =>
    show (List.range (xs.length + 1)).filterMap (fun i => (x :: xs).get? i) = x :: xs
    rw [List.range_succ_eq_map, List.filterMap_cons, List.filterMap_map]
    show x :: List.filterMap (fun i => xs.get? i) (List.range xs.length) = x :: xs
    exact congrArg (x :: ·) ih

theorem applyPerm_perm {α : Type} {σ : List Nat} {l : List α}
    (h : σ.Perm (List.range l.length)) : (applyPerm σ l).Perm l := by
  have h1 : (applyPerm σ l).Perm (applyPerm (List.range l.length) l) :=
    h.filterMap (fun i => l.get? i)
  rw [applyPerm_range] at h1
  exact h1

theorem flatten_map_perm {α β : Type} {f g : α → List β} :
    ∀ l : List α, (∀ x ∈ l, (f x).Perm (g x)) →
      ((l.map f).flatten).Perm ((l.map g).flatten) := by
  intro l
  induction l with
  | nil => intro _; exact .rfl
  | cons x xs ih =>
    intro h
    simp only [List.map_cons, List.flatten_cons]
    exact (h x (by simp)).append (ih (fun y hy => h y (List.mem_cons_of_mem _ hy)))

theorem parseFullSched_perm {env : Env} {sched : String → String → List Nat}
    (hs : ∀ a b, (sched a b).Perm (List.range (numChildren env a b))) :
    ∀ fuel fp imp st m r st', parse env fuel fp imp st = (.ok m r, st') →
      (parseFullSched env sched fuel fp imp).Perm m.fullDependencies := by
  intro fuel
  induction fuel with
  | zero => intro fp imp st m r st' h; exact absurd h parse_zero_ne_ok
  | succ f ih =>
    intro fp imp st m r st' h
    obtain ⟨pc, hlr, hdeps, _, _, _, _, _, hfull, _, hkids⟩ := parse_ok_facts h
    have hdd : directDeps env fp imp = pc.1.dependencies := directDeps_eq hlr
    have hlen : numChildren env fp imp
        = ((pc.1.dependencies.filter fun x => !x.info.module)).length := by
      unfold numChildren
      rw [hdd]
    rw [hfull]
    simp only [parseFullSched]
    rw [hdd]
    refine List.Perm.append_left _ ?_
    have hσ : (sched fp imp).Perm
        (List.range ((pc.1.dependencies.filter fun x => !x.info.module)).length) := by
      rw [← hlen]
      exact hs fp imp
    refine ((applyPerm_perm hσ).map _).flatten.trans ?_
    refine flatten_map_perm _ ?_
    intro d hd
    obtain ⟨c, rs', s', hx, hcf⟩ := hkids d hd
    exact hcf ▸ ih d.info.path (env.resolver fp imp).path ⟨[], []⟩ c rs' s' hx

theorem parseFullSched_id {env : Env} :
    ∀ fuel fp imp st m r st', parse env fuel fp imp st = (.ok m r, st') →
      parseFullSched env (fun a b => List.range (numChildren env a b)) fuel fp imp
        = m.fullDependencies := by
  intro fuel
  induction fuel with
  | zero => intro fp imp st m r st' h; exact absurd h parse_zero_ne_ok
  | succ f ih =>
    intro fp imp st m r st' h
    obtain ⟨pc, hlr, hdeps, _, _, _, _, _, hfull, _, hkids⟩ := parse_ok_facts h
    have hdd : directDeps env fp imp = pc.1.dependencies := directDeps_eq hlr
    have hlen : numChildren env fp imp
        = ((pc.1.dependencies.filter fun x => !x.info.module)).length := by
      unfold numChildren
      rw [hdd]
    rw [hfull]
    simp only [parseFullSched]
    rw [hdd, hlen, applyPerm_range]
    congr 1
    congr 1
    refine List.map_congr_left ?_
    intro d hd
    obtain ⟨c, rs', s', hx, hcf⟩ := hkids d hd
    exact (ih d.info.path (env.resolver fp imp).path ⟨[], []⟩ c rs' s' hx).trans hcf

/-- Claim C3 (amended): for every node `parse` returns, its transitive
list is its direct edges followed by the concatenation of each
non-external direct dependency's own transitive list in the order the
children's resolutions complete: for every completion schedule this is a
permutation of the declaration-order concatenation (the sequential
accumulation `parse` itself models), and it equals that concatenation
exactly when children settle in declaration order; consequently, for
every acyclic graph, the entry's transitive list contains every direct
and indirect non-external dependency reachable from the entry, with
multiplicities allowed, under every completion schedule. -/
theorem claim_C3 {env : Env} {sched : String → String → List Nat} {fuel : Nat}
    {fp imp : String} {st : ParseState} {m : ZipeModule} {r : List String} {st' : ParseState}
    (hs : ∀ a b, (sched a b).Perm (List.range (numChildren env a b)))
    (h : parse env fuel fp imp st = (.ok m r, st')) :
    (parseFullSched env sched fuel fp imp).Perm m.fullDependencies
    ∧ parseFullSched env (fun a b => List.range (numChildren env a b)) fuel fp imp
        = m.fullDependencies
    ∧ ∀ d, ReachableDep env fp imp d → d ∈ parseFullSched env sched fuel fp imp := by
  refine ⟨parseFullSched_perm hs fuel fp imp st m r st' h,
          parseFullSched_id fuel fp imp st m r st' h, ?_⟩
  intro d hd
  exact (parseFullSched_perm hs fuel fp imp st m r st' h).mem_iff.2
    (reach_mem hd fuel st m r st' h)

/-- Claim C3, counterexample to the declaration-order reading: in `envO`
(`root.ts` imports `a.ts` then `b.ts`; `a.ts` imports `c.ts`; `b.ts`
imports `d.ts`) the schedule `schedO` — a legitimate completion
permutation, realized when the shallow `b.ts` settles before the deeper
`a.ts` — makes the fan-out build `[a, b, d, c]`, which differs from the
declaration-order concatenation `[a, b, c, d]` that the claim asserts. -/
theorem claim_C3_cex :
    (schedO "root.ts" "start").Perm (List.range (numChildren envO "root.ts" "start"))
    ∧ parseFullSched envO schedO 3 "root.ts" "start" = [oDepA, oDepB, oDepD, oDepC]
    ∧ (resultNode (parse envO 3 "root.ts" "start" ⟨[], []⟩).1).map (fun m => m.fullDependencies)
        = some [oDepA, oDepB, oDepC, oDepD]
    ∧ ([oDepA, oDepB, oDepD, oDepC] : List ZipeDependency) ≠ [oDepA, oDepB, oDepC, oDepD] := by
  refine ⟨by decide, by decide, by decide, by decide⟩

/-- Claim C7: the paths a `parse` call recurses into are exactly the
non-external direct dependencies' resolved paths, in order; an
external-flagged dependency is recorded on the node but is not among the
recursion targets. -/
theorem claim_C7 {env : Env} {fuel : Nat} {fp imp : String} {st : ParseState}
    {m : ZipeModule} {r : List String} {st' : ParseState}
    (h : parse env fuel fp imp st = (.ok m r, st')) :
    r = (m.dependencies.filter fun x => !x.info.module).map (fun d => d.info.path)
    ∧ ∀ d ∈ m.dependencies, d.info.module = true →
        d ∉ m.dependencies.filter (fun x => !x.info.module) := by
  cases fuel with
  | zero => exact absurd h parse_zero_ne_ok
  | succ f =>
    obtain ⟨pc, hlr, hdeps, _, _, _, _, _, _, hrs, _⟩ := parse_ok_facts h
    constructor
    · rw [hrs, hdeps]
    · intro d _ hext hmem
      rw [List.mem_filter] at hmem
      simp [hext] at hmem

/-- Claim C10: every node `parse` returns has `dependenciesPromise`
equal to null; the field is initialized to null and never assigned. -/
theorem claim_C10 {env : Env} {fuel : Nat} {fp imp : String} {st : ParseState}
    {m : ZipeModule} {r : List String} {st' : ParseState}
    (h : parse env fuel fp imp st = (.ok m r, st')) :
    m.dependenciesPromise = none := by
  cases fuel with
  | zero => exact absurd h parse_zero_ne_ok
  | succ f =>
    obtain ⟨pc, _, _, _, _, _, _, hdp, _, _, _⟩ := parse_ok_facts h
    exact hdp

/-- Claim C2 (amended): when the content source rejects with NotFound,
`parse` propagates the rejection to its caller (the call fails rather
than returning a node); the node that was registered in the graph cache
before the read is retained there with empty `rawContent` and empty
dependency lists. -/
theorem claim_C2_amended {env : Env} {fuel : Nat} {fp imp : String} {st : ParseState}
    (hraw : env.fileContent (env.resolver fp imp).name = none) :
    parse env (fuel+1) fp imp st = (.notFound, stepState env fp imp st)
    ∧ (stepState env fp imp st).cache
        = ((env.resolver fp imp).path, freshNode env fp imp) :: st.cache
    ∧ (freshNode env fp imp).rawContent = ""
    ∧ (freshNode env fp imp).dependencies = []
    ∧ (freshNode env fp imp).fullDependencies = []
    ∧ (freshNode env fp imp).code = none := by
  have hlr : localResult env fp imp = none := by
    simp [localResult, hraw]
  exact ⟨by simp only [parse, parseStep, hlr], rfl, rfl, rfl, rfl, rfl⟩

/-- Claim C6: for a file whose extension is not the composite extension
and has no registered transform, `parse` succeeds (never throws) with a
node whose compiled code is null and whose dependency lists are empty,
and the trace of the call records exactly one warning (after the cache
insertion and the content read, and nothing else). -/
theorem claim_C6 {env : Env} {fuel : Nat} {fp imp : String} {st : ParseState} {raw : String}
    (hvue : (strDrop (posixExtname (env.resolver fp imp).path) 1) ≠ "vue")
    (htr : env.transformers (strDrop (posixExtname (env.resolver fp imp).path) 1) = none)
    (hraw : env.fileContent (env.resolver fp imp).name = some raw) :
    parse env (fuel+1) fp imp st =
      (.ok { freshNode env fp imp with rawContent := raw } [],
        ⟨((env.resolver fp imp).path, freshNode env fp imp) :: st.cache,
         Event.warn fp :: Event.contentRead (env.resolver fp imp).path (env.resolver fp imp).name
           :: Event.cacheInsert (env.resolver fp imp).path :: st.trace⟩)
      ∧ ({ freshNode env fp imp with rawContent := raw } : ZipeModule).code = none
      ∧ ({ freshNode env fp imp with rawContent := raw } : ZipeModule).dependencies = []
      ∧ ({ freshNode env fp imp with rawContent := raw } : ZipeModule).fullDependencies = []
      ∧ ({ freshNode env fp imp with rawContent := raw } : ZipeModule).rawContent = raw := by
  have hlr : localResult env fp imp = some
      ({ mkItem (posixBasename (env.resolver fp imp).name) (env.resolver fp imp)
          (strDrop (posixExtname (env.resolver fp imp).path) 1) with rawContent := raw }, true) := by
    simp only [localResult, hraw, Option.map_some', Option.some.injEq]
    unfold processContent mkItem
    dsimp only
    rw [if_neg (by simpa using hvue), htr]
  refine ⟨?_, rfl, rfl, rfl, rfl⟩
  simp only [parse, parseStep, hlr]
  rfl

theorem goodTrace_insert (p : String) (t : List Event) :
    goodTrace (Event.cacheInsert p :: t) = goodTrace t := rfl

theorem goodTrace_warn (fp : String) (t : List Event) :
    goodTrace (Event.warn fp :: t) = goodTrace t := rfl

theorem goodTrace_stepState {env : Env} {fp imp : String} {st : ParseState}
    (h : goodTrace st.trace = true) :
    goodTrace (stepState env fp imp st).trace = true := by
  show goodTrace (Event.contentRead _ _ :: Event.cacheInsert _ :: st.trace) = true
  simp only [goodTrace, insertedPaths, Bool.and_eq_true, List.contains_cons]
  exact ⟨by simp, h⟩

theorem goodTrace_stepState2 {env : Env} {fp imp : String} {st : ParseState} {w : Bool}
    (h : goodTrace st.trace = true) :
    goodTrace (stepState2 env fp imp st w).trace = true := by
  unfold stepState2
  split
  · exact goodTrace_stepState h
  · exact goodTrace_stepState h

theorem parseChildren_goodTrace
    {recur : String → String → ParseState → PResult × ParseState} {mp : String}
    (hrec : ∀ a b s, goodTrace s.trace = true → goodTrace ((recur a b s).2).trace = true) :
    ∀ ds item st, goodTrace st.trace = true →
      goodTrace ((parseChildren recur mp ds item st).2).trace = true := by
  intro ds
  induction ds with
  | nil => intro item st h; exact h
  | cons d ds ih =>
    intro item st h
    rcases hr : recur d.info.path mp st with ⟨r1, s1⟩
    have hs1 : goodTrace s1.trace = true := by
      have := hrec d.info.path mp st h
      rw [hr] at this
      exact this
    cases r1 with
    | ok c crs =>
      rcases hg : parseChildren recur mp ds (mergeChild item c) s1 with ⟨q1, t1⟩
      have ht1 : goodTrace t1.trace = true := by
        have := ih (mergeChild item c) s1 hs1
        rw [hg] at this
        exact this
      simp only [parseChildren, hr, hg]
      cases q1 <;> exact ht1
    | notFound => simp only [parseChildren, hr]; exact hs1
    | fuelOut => simp only [parseChildren, hr]; exact hs1

theorem parseChildren_trace_ext
    {recur : String → String → ParseState → PResult × ParseState} {mp : String}
    (hrec : ∀ a b s, ∃ t, ((recur a b s).2).trace = t ++ s.trace) :
    ∀ ds item st, ∃ t, ((parseChildren recur mp ds item st).2).trace = t ++ st.trace := by
  intro ds
  induction ds with
  | nil => exact fun item st => ⟨[], rfl⟩
  | cons d ds ih =>
    intro item st
    rcases hr : recur d.info.path mp st with ⟨r1, s1⟩
    obtain ⟨t1, ht1⟩ : ∃ t, s1.trace = t ++ st.trace := by
      have := hrec d.info.path mp st
      rw [hr] at this
      exact this
    cases r1 with
    | ok c crs =>
      rcases hg : parseChildren recur mp ds (mergeChild item c) s1 with ⟨q1, t2st⟩
      obtain ⟨t2, ht2⟩ : ∃ t, t2st.trace = t ++ s1.trace := by
        have := ih (mergeChild item c) s1
        rw [hg] at this
        exact this
      simp only [parseChildren, hr, hg]
      cases q1 <;> exact ⟨_, by rw [ht2, ht1, List.append_assoc]⟩
    | notFound => simp only [parseChildren, hr]; exact ⟨t1, ht1⟩
    | fuelOut => simp only [parseChildren, hr]; exact ⟨t1, ht1⟩

theorem parse_trace_ext (env : Env) :
    ∀ fuel fp imp (st : ParseState), ∃ t, ((parse env fuel fp imp st).2).trace = t ++ st.trace := by
  intro fuel
  induction fuel with
  | zero => exact fun fp imp st => ⟨[], rfl⟩
  | succ f ih =>
    intro fp imp st
    simp only [parse, parseStep]
    cases hlr : localResult env fp imp with
    | none =>
      exact ⟨[Event.contentRead (env.resolver fp imp).path (env.resolver fp imp).name,
              Event.cacheInsert (env.resolver fp imp).path], rfl⟩
    | some pc =>
      obtain ⟨t, ht⟩ := parseChildren_trace_ext (fun a b s => ih a b s)
        (pc.1.dependencies.filter fun x => !x.info.module)
        { pc.1 with fullDependencies := pc.1.fullDependencies ++ pc.1.dependencies }
        (stepState2 env fp imp st pc.2)
      rw [ht]
      unfold stepState2 stepState
      split
      · exact ⟨t ++ [Event.warn fp,
          Event.contentRead (env.resolver fp imp).path (env.resolver fp imp).name,
          Event.cacheInsert (env.resolver fp imp).path], by simp⟩
      · exact ⟨t ++ [Event.contentRead (env.resolver fp imp).path (env.resolver fp imp).name,
          Event.cacheInsert (env.resolver fp imp).path], by simp⟩

/-- Claim C9: every `parse` call registers the freshly allocated node in
the graph cache, keyed by the resolved canonical path, before any content
is read: (1) the trace invariant "every content read happens at a moment
where the module's path is already registered in the cache" is preserved
by every run, and (2) the events of one call start (oldest first) with
exactly the cache insertion of the resolved path immediately followed by
the content read of that module, everything else coming later. -/
theorem claim_C9 :
    (∀ (env : Env) fuel fp imp (st : ParseState), goodTrace st.trace = true →
      goodTrace ((parse env fuel fp imp st).2).trace = true)
    ∧ ∀ (env : Env) fuel fp imp (st : ParseState), ∃ t,
        ((parse env (fuel+1) fp imp st).2).trace =
          t ++ Event.contentRead (env.resolver fp imp).path (env.resolver fp imp).name
            :: Event.cacheInsert (env.resolver fp imp).path :: st.trace := by
  constructor
  · intro env fuel
    induction fuel with
    | zero => intro fp imp st h; exact h
    | succ f ih =>
      intro fp imp st h
      simp only [parse, parseStep]
      cases hlr : localResult env fp imp with
      | none => exact goodTrace_stepState h
      | some pc =>
        exact parseChildren_goodTrace (fun a b s hs => ih a b s hs) _ _ _
          (goodTrace_stepState2 h)
  · intro env fuel fp imp st
    simp only [parse, parseStep]
    cases hlr : localResult env fp imp with
    | none => exact ⟨[], rfl⟩
    | some pc =>
      obtain ⟨t, ht⟩ := parseChildren_trace_ext (fun a b s => parse_trace_ext env fuel a b s)
        (pc.1.dependencies.filter fun x => !x.info.module)
        { pc.1 with fullDependencies := pc.1.fullDependencies ++ pc.1.dependencies }
        (stepState2 env fp imp st pc.2)
      rw [ht]
      unfold stepState2 stepState
      split
      · exact ⟨t ++ [Event.warn fp], by simp⟩
      · exact ⟨t, by simp⟩

theorem parseChildren_all_ok
    {recur : String → String → ParseState → PResult × ParseState} {mp : String}
    {ds : List ZipeDependency}
    (h : ∀ d ∈ ds, ∀ s : ParseState, ∃ c rs' s', recur d.info.path mp s = (.ok c rs', s')) :
    ∀ item st, ∃ m rs st', parseChildren recur mp ds item st = (.ok m rs, st') := by
  induction ds with
  | nil => exact fun item st => ⟨item, [], st, rfl⟩
  | cons d ds ih =>
    intro item st
    obtain ⟨c, rs', s', hx⟩ := h d (by simp) st
    obtain ⟨m, rs, st', hg⟩ :=
      ih (fun d' hd' s => h d' (List.mem_cons_of_mem _ hd') s) (mergeChild item c) s'
    refine ⟨m, d.info.path :: rs, st', ?_⟩
    simp only [parseChildren, hx, hg]

theorem wf_parse_ok {env : Env} {fp imp : String} {n : Nat}
    (hwf : WellFormed env fp imp n) :
    ∀ fuel, n ≤ fuel → ∀ st, ∃ m r st', parse env fuel fp imp st = (.ok m r, st') := by
  induction hwf with
  | @mk fpx impx nx hcontent hchildren ih =>
    intro fuel hle st
    cases fuel with
    | zero => omega
    | succ f =>
      have hf : nx ≤ f := by omega
      obtain ⟨raw, hraw⟩ := Option.isSome_iff_exists.1 hcontent
      have hlr : ∃ pc, localResult env fpx impx = some pc := by
        simp [localResult, hraw]
      obtain ⟨pc, hlr⟩ := hlr
      have hdd := directDeps_eq hlr
      have hchild : ∀ d ∈ pc.1.dependencies.filter (fun x => !x.info.module),
          ∀ s : ParseState, ∃ c rs' s',
            parse env f d.info.path (env.resolver fpx impx).path s = (.ok c rs', s') := by
        intro d hd s
        rw [List.mem_filter] at hd
        have hdnot : d.info.module = false := by
          rcases hd with ⟨_, h2⟩
          revert h2
          cases d.info.module <;> simp
        exact ih d (hdd ▸ hd.1) hdnot f hf s
      obtain ⟨m, rs, st', hpc⟩ := parseChildren_all_ok hchild
        { pc.1 with fullDependencies := pc.1.fullDependencies ++ pc.1.dependencies }
        (stepState2 env fpx impx st pc.2)
      exact ⟨m, rs, st', by simp only [parse, parseStep, hlr]; exact hpc⟩

theorem parseChildren_fuelOut_head
    {recur : String → String → ParseState → PResult × ParseState}
    {mp : String} {d : ZipeDependency} {ds : List ZipeDependency}
    {item : ZipeModule} {st : ParseState}
    (h : (recur d.info.path mp st).1 = .fuelOut) :
    (parseChildren recur mp (d :: ds) item st).1 = .fuelOut := by
  rcases hr : recur d.info.path mp st with ⟨r1, s1⟩
  rw [hr] at h
  have hr1 : r1 = PResult.fuelOut := h
  subst hr1
  simp only [parseChildren, hr]

theorem cyc_fuelOut : ∀ fuel imp (st : ParseState),
    (parse cycEnv fuel "/a" imp st).1 = .fuelOut := by
  intro fuel
  induction fuel with
  | zero => intro imp st; rfl
  | succ f ih =>
    intro imp st
    have hlr : localResult cycEnv "/a" imp = some (cycItem, false) := rfl
    have hfil : cycItem.dependencies.filter (fun x => !x.info.module) = [cycDep] := rfl
    simp only [parse, parseStep, hlr]
    rw [hfil]
    exact parseChildren_fuelOut_head (ih _ _)

/-- Claim C5: (1) the result of `parse` does not depend on the incoming
state — in particular the graph cache is never consulted before recursing,
so pre-populated cache entries change nothing; (2) on a depth-bounded
(acyclic, content-available) dependency graph, `parse` returns a node
whenever given at least that much fuel; (3) on the self-import cycle of
`cycEnv`, no amount of fuel ever suffices: the recursion does not
terminate. -/
theorem claim_C5 :
    (∀ (env : Env) fuel fp imp (st st' : ParseState),
      (parse env fuel fp imp st).1 = (parse env fuel fp imp st').1)
    ∧ (∀ (env : Env) fp imp n fuel (st : ParseState), WellFormed env fp imp n → n ≤ fuel →
        (resultNode (parse env fuel fp imp st).1).isSome = true)
    ∧ ∀ fuel imp (st : ParseState), (parse cycEnv fuel "/a" imp st).1 = .fuelOut := by
  refine ⟨fun env fuel fp imp st st' => parse_fst env fuel fp imp st st', ?_, cyc_fuelOut⟩
  intro env fp imp n fuel st hwf hle
  obtain ⟨m, r, st', h⟩ := wf_parse_ok hwf fuel hle st
  rw [h]
  rfl

/-- Claim C1, evaluated at the Scenario A failing input: the node stores
the transformed code (which is exactly the import statement, and on which
the extractor would report the `util.ts` edge), yet the node's direct
dependency list and `fullDependencies` are both empty — the source feeds
`item.sfc.script.code` (always empty on this branch) to the extractor
instead of the node's own compiled code. -/
theorem claim_C1 :
    (resultNode (parse envA 2 "main.ts" "start" ⟨[], []⟩).1).map (fun m => m.code)
      = some (some "import \"./util.ts\"")
    ∧ envA.extractor "import \"./util.ts\"" "main.ts" = ([utilDep], [])
    ∧ (resultNode (parse envA 2 "main.ts" "start" ⟨[], []⟩).1).map (fun m => m.dependencies)
      = some []
    ∧ (resultNode (parse envA 2 "main.ts" "start" ⟨[], []⟩).1).map (fun m => m.fullDependencies)
      = some [] := by
  refine ⟨by decide, by decide, by decide, by decide⟩

/-- Claim C2, counterexample: with the content source rejecting the entry
path, `parse` does not return a node — the NotFound rejection propagates
to the caller. -/
theorem claim_C2_cex :
    (parse envD 1 "gone.ts" "start" ⟨[], []⟩).1 = .notFound
    ∧ resultNode (parse envD 1 "gone.ts" "start" ⟨[], []⟩).1 = none := by
  refine ⟨by decide, by decide⟩

/-- Witness for the amended claim C2 at the Scenario D environment. -/
theorem claim_C2_witness :
    parse envD 1 "gone.ts" "start" ⟨[], []⟩
        = (.notFound, stepState envD "gone.ts" "start" ⟨[], []⟩)
    ∧ (stepState envD "gone.ts" "start" ⟨[], []⟩).cache
        = [((envD.resolver "gone.ts" "start").path, freshNode envD "gone.ts" "start")]
    ∧ (freshNode envD "gone.ts" "start").rawContent = ""
    ∧ (freshNode envD "gone.ts" "start").dependencies = []
    ∧ (freshNode envD "gone.ts" "start").fullDependencies = []
    ∧ (freshNode envD "gone.ts" "start").code = none :=
  claim_C2_amended rfl

/-- Witness for claim C6 at a `.md` file with no registered transform. -/
theorem claim_C6_witness :
    parse envU 1 "notes.md" "start" ⟨[], []⟩ =
      (.ok { freshNode envU "notes.md" "start" with rawContent := "text" } [],
        ⟨[((envU.resolver "notes.md" "start").path, freshNode envU "notes.md" "start")],
         [Event.warn "notes.md",
          Event.contentRead (envU.resolver "notes.md" "start").path
            (envU.resolver "notes.md" "start").name,
          Event.cacheInsert (envU.resolver "notes.md" "start").path]⟩)
    ∧ ({ freshNode envU "notes.md" "start" with rawContent := "text" } : ZipeModule).code = none
    ∧ ({ freshNode envU "notes.md" "start" with rawContent := "text" } : ZipeModule).dependencies = []
    ∧ ({ freshNode envU "notes.md" "start" with rawContent := "text" } : ZipeModule).fullDependencies = []
    ∧ ({ freshNode envU "notes.md" "start" with rawContent := "text" } : ZipeModule).rawContent = "text" :=
  claim_C6 (by decide) rfl rfl

theorem envT_run_eq : parse envT 2 "root.ts" "start" ⟨[], []⟩ =
    (.ok rootNode ["leaf.ts"],
      ⟨[("leaf.ts", mkItem "leaf.ts" leafInfo "ts"), ("root.ts", mkItem "root.ts" rootInfo "ts")],
       [Event.contentRead "leaf.ts" "leaf.ts", Event.cacheInsert "leaf.ts",
        Event.contentRead "root.ts" "root.ts", Event.cacheInsert "root.ts"]⟩) := by
  decide

/-- Witness for the amended claim C3 at the two-module graph, with the
identity (declaration-order) completion schedule. -/
theorem claim_C3_witness :
    (parseFullSched envT (fun a b => List.range (numChildren envT a b)) 2 "root.ts"
      "start").Perm rootNode.fullDependencies :=
  (claim_C3 (fun _ _ => List.Perm.refl _) envT_run_eq).1

/-- Witness for claim C7 at the two-module graph. -/
theorem claim_C7_witness :
    ["leaf.ts"] = (rootNode.dependencies.filter fun x => !x.info.module).map (fun d => d.info.path) :=
  (claim_C7 envT_run_eq).1

/-- Witness for claim C10 at the two-module graph. -/
theorem claim_C10_witness : rootNode.dependenciesPromise = none :=
  claim_C10 envT_run_eq

/-- Witness for claim C9 at the two-module graph. -/
theorem claim_C9_witness :
    goodTrace ((parse envT 2 "root.ts" "start" ⟨[], []⟩).2).trace = true :=
  claim_C9.1 envT 2 "root.ts" "start" ⟨[], []⟩ rfl

/-- Witness for claim C5: the two-module graph is depth-bounded, and with
that much fuel `parse` returns a node. -/
theorem claim_C5_witness :
    (resultNode (parse envT 2 "root.ts" "start" ⟨[], []⟩).1).isSome = true := by
  have wfLeaf : WellFormed envT "leaf.ts" "root.ts" 1 := by
    refine WellFormed.mk (by decide) ?_
    intro d hd
    rw [show directDeps envT "leaf.ts" "root.ts" = [] from by decide] at hd
    simp at hd
  have wfRoot : WellFormed envT "root.ts" "start" 2 := by
    refine WellFormed.mk (by decide) ?_
    intro d hd hext
    rw [show directDeps envT "root.ts" "start" = [leafDep] from by decide] at hd
    have hdl : d = leafDep := by simpa using hd
    subst hdl
    exact wfLeaf
  exact claim_C5.2.1 envT "root.ts" "start" 2 2 ⟨[], []⟩ wfRoot (by omega)

/-! ## Claims about the SFC compile pipeline -/

theorem cacheGet_set_self (c : VueCache) (k : String) (e : CacheEntry) :
    cacheGet (cacheSet c k e) k = some e := by
  simp [cacheGet, cacheSet]

theorem setStyleAt_getD :
    ∀ (l : List (Option SFCStyleCompileResults)) (i : Nat) (r : SFCStyleCompileResults),
      (setStyleAt l i r).getD i none = some r := by
  intro l
  induction l with
  | nil =>
    intro i r
    induction i with
    | zero => rfl
    | succ j ihj => simpa [setStyleAt] using ihj
  | cons x xs ih =>
    intro i r
    cases i with
    | zero => rfl
    | succ j => simpa [setStyleAt] using ih j r

/-- Claim C4: each of the four compile steps first checks the
compiled-artifact cache entry for the path and, on a hit, returns the
cached sub-field without invoking the underlying compiler (third result
component `false`, cache unchanged); consequently a second identical call
right after any call never invokes the underlying compiler. -/
theorem claim_C4 :
    (∀ cenv fn content c d, (cacheGet c fn).bind CacheEntry.descriptor = some d →
        parseSFC cenv fn content c = (d, c, false))
    ∧ (∀ cenv dsc fp pp c s, (cacheGet c fp).bind CacheEntry.script = some s →
        compileSFCMain cenv dsc fp pp c = (s, c, false))
    ∧ (∀ cenv t fn pp sc c tc, (cacheGet c fn).bind CacheEntry.template = some tc →
        compileSFCTemplate cenv t fn pp sc c = (tc, c, false))
    ∧ (∀ cenv s i fn pp c r, (cacheGet c fn).bind (fun e => e.styles.getD i none) = some r →
        compileSFCStyle cenv s i fn pp c = (r, c, false))
    ∧ (∀ cenv fn content c, (parseSFC cenv fn content (parseSFC cenv fn content c).2.1).2.2 = false)
    ∧ (∀ cenv dsc fp pp c,
        (compileSFCMain cenv dsc fp pp (compileSFCMain cenv dsc fp pp c).2.1).2.2 = false)
    ∧ (∀ cenv t fn pp sc c,
        (compileSFCTemplate cenv t fn pp sc (compileSFCTemplate cenv t fn pp sc c).2.1).2.2 = false)
    ∧ ∀ cenv s i fn pp c,
        (compileSFCStyle cenv s i fn pp (compileSFCStyle cenv s i fn pp c).2.1).2.2 = false := by
  refine ⟨?_, ?_, ?_, ?_, ?_, ?_, ?_, ?_⟩
  · intro cenv fn content c d h
    simp only [parseSFC, h]
  · intro cenv dsc fp pp c s h
    simp only [compileSFCMain, h]
  · intro cenv t fn pp sc c tc h
    simp only [compileSFCTemplate, h]
  · intro cenv s i fn pp c r h
    simp only [compileSFCStyle, h]
  · intro cenv fn content c
    rcases hm : (cacheGet c fn).bind CacheEntry.descriptor with _ | d
    · simp only [parseSFC, hm, cacheGet_set_self, Option.bind_eq_bind, Option.some_bind]
    · simp only [parseSFC, hm]
  · intro cenv dsc fp pp c
    rcases hm : (cacheGet c fp).bind CacheEntry.script with _ | s
    · simp only [compileSFCMain, hm, cacheGet_set_self, Option.bind_eq_bind, Option.some_bind]
    · simp only [compileSFCMain, hm]
  · intro cenv t fn pp sc c
    rcases hm : (cacheGet c fn).bind CacheEntry.template with _ | tc
    · simp only [compileSFCTemplate, hm, cacheGet_set_self, Option.bind_eq_bind,
        Option.some_bind]
    · simp only [compileSFCTemplate, hm]
  · intro cenv s i fn pp c
    rcases hm : (cacheGet c fn).bind (fun e => e.styles.getD i none) with _ | r
    · simp only [compileSFCStyle, hm, cacheGet_set_self, Option.bind_eq_bind,
        Option.some_bind, setStyleAt_getD]
    · simp only [compileSFCStyle, hm]

/-- Witness for claim C4: all four compile steps hit the populated cache
entry and return the cached sub-fields without invoking any compiler. -/
theorem claim_C4_witness :
    parseSFC cenvW "App.vue" "src" cW = (ddW, cW, false)
    ∧ compileSFCMain cenvW ddW "App.vue" "/App.vue" cW = ("script", cW, false)
    ∧ compileSFCTemplate cenvW tplW "App.vue" "/App.vue" true cW = ("tpl", cW, false)
    ∧ compileSFCStyle cenvW styW 0 "App.vue" "/App.vue" cW = (⟨"css", []⟩, cW, false) :=
  ⟨claim_C4.1 cenvW "App.vue" "src" cW ddW rfl,
   claim_C4.2.1 cenvW ddW "App.vue" "/App.vue" cW "script" rfl,
   claim_C4.2.2.1 cenvW tplW "App.vue" "/App.vue" true cW "tpl" rfl,
   claim_C4.2.2.2.1 cenvW styW 0 "App.vue" "/App.vue" cW ⟨"css", []⟩ rfl⟩

theorem occursStr_self (n : String) : occursStr n n = true := occursB_self n.data

theorem styleRequest_noM {pp : String} (hpp : charNotIn 'M' pp) (i : Nat) :
    charNotIn 'M' (styleRequest pp i) := by
  unfold styleRequest
  exact charNotIn_append.2 ⟨charNotIn_append.2 ⟨hpp, by decide⟩, decStr_notM i⟩

theorem updateStyleLine_noM {id pp : String} (hid : charNotIn 'M' id)
    (hpp : charNotIn 'M' pp) (i : Nat) :
    charNotIn 'M' (updateStyleLine id pp i) := by
  unfold updateStyleLine
  exact charNotIn_append.2 ⟨charNotIn_append.2 ⟨charNotIn_append.2 ⟨charNotIn_append.2
    ⟨charNotIn_append.2 ⟨charNotIn_append.2 ⟨by decide, hid⟩, by decide⟩, decStr_notM i⟩,
      by decide⟩, jsonStr_notM (styleRequest_noM hpp i)⟩, by decide⟩

theorem stylesCodeLoop_noM {id pp : String} (hid : charNotIn 'M' id)
    (hpp : charNotIn 'M' pp) :
    ∀ l i sc mo, (∀ s ∈ l, s.module = none) →
      charNotIn 'M' (stylesCodeLoop id pp l i sc mo).1 := by
  intro l
  induction l with
  | nil =>
    intro i sc mo _
    show charNotIn 'M' ""
    decide
  | cons s rest ih =>
    intro i sc mo h
    have hs : s.module = none := h s (by simp)
    simp only [stylesCodeLoop, hs]
    exact charNotIn_append.2 ⟨charNotIn_append.2 ⟨by decide, updateStyleLine_noM hid hpp i⟩,
      ih (i+1) (sc || s.scoped') mo (fun s' hs' => h s' (List.mem_cons_of_mem _ hs'))⟩

theorem stylesCodeLoop_scoped (id pp : String) :
    ∀ l i sc mo, (stylesCodeLoop id pp l i sc mo).2.1 = (sc || l.any (fun s => s.scoped')) := by
  intro l
  induction l with
  | nil => intro i sc mo; simp [stylesCodeLoop]
  | cons s rest ih =>
    intro i sc mo
    cases hsm : s.module with
    | none => simp [stylesCodeLoop, hsm, ih, Bool.or_assoc]
    | some m => simp [stylesCodeLoop, hsm, ih, Bool.or_assoc]

theorem stylesCodeLoop_module_occurs {id pp : String} :
    ∀ (l : List SFCStyleBlock) i0 sc mo k s m, l.get? k = some s → s.module = some m →
      occursStr (cssModulesAssign (moduleNameOf m) (i0 + k))
        (stylesCodeLoop id pp l i0 sc mo).1 = true := by
  intro l
  induction l with
  | nil => intro i0 sc mo k s m hget _; simp at hget
  | cons s0 rest ih =>
    intro i0 sc mo k s m hget hm
    cases k with
    | zero =>
      have hs : s0 = s := by simpa using hget
      subst hs
      simp only [stylesCodeLoop, hm, Nat.add_zero]
      refine occursStr_append_left _ (occursStr_append_left _ ?_)
      unfold moduleChunk
      exact occursStr_append_right _ (occursStr_append_right _ (occursStr_self _))
    | succ j =>
      have hget' : rest.get? j = some s := by simpa using hget
      have hidx : i0 + (j+1) = (i0+1) + j := by omega
      rw [hidx]
      cases hsm0 : s0.module with
      | none =>
        simp only [stylesCodeLoop, hsm0]
        exact occursStr_append_right _ (ih (i0+1) _ _ j s m hget' hm)
      | some m0 =>
        simp only [stylesCodeLoop, hsm0]
        exact occursStr_append_right _ (ih (i0+1) _ _ j s m hget' hm)

theorem mainCodeTail_occurs {cenv : CompilerEnv} {descriptor : SFCDescriptor}
    {fp pp code : String} {n : String} (h : occursStr n code = true) :
    occursStr n (mainCodeTail cenv descriptor fp pp code) = true := by
  unfold mainCodeTail
  dsimp only
  split
  · apply occursStr_append_left
    apply occursStr_append_left
    apply occursStr_append_left
    apply occursStr_append_left
    apply occursStr_append_left
    apply occursStr_append_left
    split
    · apply occursStr_append_left
      apply occursStr_append_left
      apply occursStr_append_left
      exact h
    · exact h
  · apply occursStr_append_left
    apply occursStr_append_left
    apply occursStr_append_left
    apply occursStr_append_left
    apply occursStr_append_left
    split
    · apply occursStr_append_left
      apply occursStr_append_left
      apply occursStr_append_left
      exact h
    · exact h

theorem mainCodeTail_noM {cenv : CompilerEnv} {descriptor : SFCDescriptor}
    {fp pp code : String} (hcode : charNotIn 'M' code)
    (hpp : charNotIn 'M' pp) (hfp : charNotIn 'M' fp)
    (hmap : ∀ sb, descriptor.script = some sb →
      charNotIn 'M' (cenv.genSourceMapString sb.map)) :
    charNotIn 'M' (mainCodeTail cenv descriptor fp pp code) := by
  have hjpp := jsonStr_notM hpp
  have hjfp := jsonStr_notM hfp
  have hjt : charNotIn 'M' (jsonStr (pp ++ "?type=template")) :=
    jsonStr_notM (charNotIn_append.2 ⟨hpp, by decide⟩)
  unfold mainCodeTail
  dsimp only
  split
  all_goals split
  all_goals simp only [charNotIn_append]
  all_goals repeat' apply And.intro
  all_goals
    first
    | decide
    | exact hcode
    | exact hpp
    | exact hfp
    | exact hjpp
    | exact hjfp
    | exact hjt
    | exact hmap _ (by assumption)

theorem mainCodeStyled_noM {cenv : CompilerEnv} {descriptor : SFCDescriptor} {pp : String}
    (hmods : ∀ s ∈ descriptor.styles, s.module = none)
    (hsc : charNotIn 'M' (scriptCode cenv descriptor pp))
    (hh : charNotIn 'M' (cenv.hash pp)) (hpp : charNotIn 'M' pp) :
    charNotIn 'M' (mainCodeStyled cenv descriptor pp) := by
  have hsl := stylesCodeLoop_noM hh hpp descriptor.styles 0 false false hmods
  have hui : charNotIn 'M' updateStyleImport := by decide
  have hsa : charNotIn 'M' (scopeIdAssign (cenv.hash pp)) := by
    unfold scopeIdAssign
    exact charNotIn_append.2 ⟨charNotIn_append.2 ⟨by decide, hh⟩, by decide⟩
  unfold mainCodeStyled
  dsimp only
  split
  · exact charNotIn_append.2 ⟨charNotIn_append.2 ⟨charNotIn_append.2 ⟨hsc, hui⟩, hsl⟩,
      charNotIn_append.2 ⟨by decide, hsa⟩⟩
  · exact charNotIn_append.2 ⟨charNotIn_append.2 ⟨hsc, hui⟩, hsl⟩

/-- Claim C8: for a composite file with at least one scoped style block
and no CSS-module block, the generated behavior code contains the
assignment of `__scopeId` to `data-v-` followed by the hash of the public
path, and mentions `__cssModules` nowhere (the side conditions say the
variable inputs — script part, hash, paths, source-map comment — do not
themselves contain the capital letter of that token); and whenever style
block `i` declares CSS-module semantics, the generated code assigns that
block's compiled output into `__cssModules[<name>]`, the declared name
(e.g. `"theme"`) when one is given and `"$style"` otherwise. -/
theorem claim_C8 :
    (∀ (cenv : CompilerEnv) (descriptor : SFCDescriptor) (filePath publicPath : String),
      (∀ s ∈ descriptor.styles, s.module = none) →
      descriptor.styles.any (fun s => s.scoped') = true →
      charNotIn 'M' (scriptCode cenv descriptor publicPath) →
      charNotIn 'M' (cenv.hash publicPath) →
      charNotIn 'M' publicPath →
      charNotIn 'M' filePath →
      (∀ sb, descriptor.script = some sb → charNotIn 'M' (cenv.genSourceMapString sb.map)) →
      occursStr (scopeIdAssign (cenv.hash publicPath))
          (mainCode cenv descriptor filePath publicPath) = true
      ∧ occursStr "__cssModules" (mainCode cenv descriptor filePath publicPath) = false)
    ∧ ∀ (cenv : CompilerEnv) (descriptor : SFCDescriptor) (filePath publicPath : String)
        (i : Nat) (s : SFCStyleBlock) (m : Option String),
        descriptor.styles.get? i = some s → s.module = some m →
        occursStr (cssModulesAssign (moduleNameOf m) i)
          (mainCode cenv descriptor filePath publicPath) = true := by
  constructor
  · intro cenv descriptor fp pp hmods hscoped hsc hh hpp hfp hmap
    have hcond : (stylesCodeLoop (cenv.hash pp) pp descriptor.styles 0 false false).2.1 = true := by
      rw [stylesCodeLoop_scoped, Bool.false_or, hscoped]
    constructor
    · unfold mainCode
      apply mainCodeTail_occurs
      unfold mainCodeStyled
      dsimp only
      rw [if_pos hcond]
      exact occursStr_append_right _ (occursStr_append_right _ (occursStr_self _))
    · exact occursStr_eq_false (by decide)
        (mainCodeTail_noM (mainCodeStyled_noM hmods hsc hh hpp) hpp hfp hmap)
  · intro cenv descriptor fp pp i s m hget hm
    have hocc : occursStr (cssModulesAssign (moduleNameOf m) i)
        (stylesCodeLoop (cenv.hash pp) pp descriptor.styles 0 false false).1 = true := by
      have := @stylesCodeLoop_module_occurs (cenv.hash pp) pp
        descriptor.styles 0 false false i s m hget hm
      simpa using this
    unfold mainCode
    apply mainCodeTail_occurs
    unfold mainCodeStyled
    dsimp only
    split
    · exact occursStr_append_left _ (occursStr_append_right _ hocc)
    · exact occursStr_append_right _ hocc

/-- Witness for claim C8 at Scenarios B and C (plus the `$style` default). -/
theorem claim_C8_witness :
    (occursStr (scopeIdAssign (cenvW.hash "/App.vue"))
        (mainCode cenvW descB "/App.vue" "/App.vue") = true
      ∧ occursStr "__cssModules" (mainCode cenvW descB "/App.vue" "/App.vue") = false)
    ∧ occursStr (cssModulesAssign (moduleNameOf (some "theme")) 0)
        (mainCode cenvW descC "/App.vue" "/App.vue") = true
    ∧ occursStr (cssModulesAssign (moduleNameOf none) 0)
        (mainCode cenvW descS "/App.vue" "/App.vue") = true :=
  ⟨claim_C8.1 cenvW descB "/App.vue" "/App.vue" (by decide) (by decide) (by decide)
      (by decide) (by decide) (by decide) (fun _ h => Option.noConfusion h),
   claim_C8.2 cenvW descC "/App.vue" "/App.vue" 0 styM (some "theme") rfl rfl,
   claim_C8.2 cenvW descS "/App.vue" "/App.vue" 0 styS none rfl rfl⟩
